import Mathlib

/-!
Shallow embedding of the PyMatching weighted-graph construction layer
(`pm::merge_weights`, `pm::IntermediateWeightedGraph` and its operations,
`pm::detector_error_model_to_weighted_graph`, `pm::IntermediateWeightedGraph::to_mwpm`)
and of the flooder event-queue layer (`pm::Compare`, `pm::GraphFlooder`).

C++ `double` is modelled as `ℝ`, `std::vector` as `List`, `size_t` as `Nat`
with explicit wrap-around modulo `2 ^ 64` where the source's unsigned
arithmetic can overflow, and `throw std::invalid_argument` as an
`Except`-error return.  An out-of-bounds `std::vector::operator[]` access
(undefined behaviour in C++) is modelled by the distinct error value
`GraphError.out_of_bounds`.
-/

namespace pm

/-- Error outcomes of the graph-construction operations: `invalid_argument`
models `throw std::invalid_argument`, `out_of_bounds` models an out-of-range
`std::vector::operator[]` access (undefined behaviour in C++). -/
inductive GraphError where
  | invalid_argument
  | out_of_bounds
deriving DecidableEq

/-- One adjacency entry of `pm::IntermediateWeightedGraph`: the neighbor is
either another detector node (`some v`) or the boundary (`none`, the source's
null pointer), with a `double` weight and a list of observable indices. -/
structure Neighbor where
  node : Option Nat
  weight : ℝ
  observables : List Nat

/-- `pm::IntermediateWeightedGraph`: per-node adjacency lists (the source's
`std::vector<std::vector<Neighbor>> nodes`) plus counts of detectors and
observables. -/
structure IntermediateWeightedGraph where
  num_nodes : Nat
  num_observables : Nat
  nodes : List (List Neighbor)

/-- A freshly constructed `IntermediateWeightedGraph`: `num_nodes` empty
adjacency lists. -/
def emptyGraph (numDetectors numObservables : Nat) : IntermediateWeightedGraph :=
  ⟨numDetectors, numObservables, List.replicate numDetectors []⟩

/-- `2 ^ 64`: the modulus of the C++ `size_t` arithmetic in the range checks. -/
def USIZE : Nat := 2 ^ 64

/-- `std::copysign(1, a)` on reals: `1` for `a ≥ 0`, `-1` for `a < 0`. -/
noncomputable def copysign1 (a : ℝ) : ℝ := if a < 0 then -1 else 1

/-- `pm::merge_weights(a, b)` from the source:
`sgn(a)·sgn(b)·min(|a|,|b|) + log(1+exp(−|a+b|)) − log(1+exp(−|a−b|))`. -/
noncomputable def merge_weights (a b : ℝ) : ℝ :=
  copysign1 a * copysign1 b * min |a| |b|
    + Real.log (1 + Real.exp (-|a + b|)) - Real.log (1 + Real.exp (-|a - b|))

/-- Index of the first adjacency entry whose `node` field equals `t`
(the source's `std::find_if` over an adjacency list, comparing the stored
neighbor pointer). -/
def findEdgeIdx : List Neighbor → Option Nat → Option Nat
  | [], _ => none
  | nb :: rest, t => if nb.node = t then some 0 else (findEdgeIdx rest t).map (· + 1)

/-- Placeholder adjacency entry used as the (never-relevant) default of
in-range `List.getD` lookups. -/
def dNeighbor : Neighbor := ⟨none, 0, []⟩

/-- `pm::IntermediateWeightedGraph::add_or_merge_edge(u, v, weight, observables)`.
The source first checks `max(u,v) + 1 > nodes.size()` in `size_t` arithmetic
(hence the `% USIZE`) and throws `invalid_argument` on failure; otherwise it
looks for an existing `u`–`v` edge. If none exists it pushes the new entry
onto both `nodes[u]` and `nodes[v]`; if one exists it overwrites the stored
weight (in both directions) with `merge_weights(old, weight)` and leaves the
stored observables untouched. -/
noncomputable def add_or_merge_edge (g : IntermediateWeightedGraph) (u v : Nat)
    (weight : ℝ) (observables : List Nat) : Except GraphError IntermediateWeightedGraph :=
  if g.nodes.length < (max u v + 1) % USIZE then
    .error .invalid_argument
  else
    match g.nodes[u]?, g.nodes[v]? with
    | some nu, some _ =>
      match findEdgeIdx nu (some v) with
      | none =>
        let nodes1 := g.nodes.set u (nu ++ [⟨some v, weight, observables⟩])
        match nodes1[v]? with
        | some nv1 => .ok { g with nodes := nodes1.set v (nv1 ++ [⟨some u, weight, observables⟩]) }
        | none => .error .out_of_bounds
      | some i =>
        let old := nu.getD i dNeighbor
        let w := merge_weights old.weight weight
        let nodes1 := g.nodes.set u (nu.set i ⟨old.node, w, old.observables⟩)
        match nodes1[v]? with
        | some nv1 =>
          match findEdgeIdx nv1 (some u) with
          | some j =>
            let oldr := nv1.getD j dNeighbor
            .ok { g with nodes := nodes1.set v (nv1.set j ⟨oldr.node, w, oldr.observables⟩) }
          | none => .ok { g with nodes := nodes1 }
        | none => .error .out_of_bounds
    | _, _ => .error .out_of_bounds

/-- `pm::IntermediateWeightedGraph::add_or_merge_boundary_edge(u, weight, observables)`.
The source checks `u > nodes.size() - 1` in `size_t` arithmetic — for an
empty graph `nodes.size() - 1` wraps to `2^64 - 1` — and throws
`invalid_argument` on failure; otherwise it looks for an existing boundary
entry (`node == nullptr`). If none exists it pushes a new entry onto
`nodes[u]`; if one exists it overwrites its weight with
`merge_weights(weight, old)`. -/
noncomputable def add_or_merge_boundary_edge (g : IntermediateWeightedGraph) (u : Nat)
    (weight : ℝ) (observables : List Nat) : Except GraphError IntermediateWeightedGraph :=
  if (g.nodes.length + USIZE - 1) % USIZE < u then
    .error .invalid_argument
  else
    match g.nodes[u]? with
    | some nu =>
      match findEdgeIdx nu none with
      | none => .ok { g with nodes := g.nodes.set u (nu ++ [⟨none, weight, observables⟩]) }
      | some i =>
        let old := nu.getD i dNeighbor
        .ok { g with nodes := g.nodes.set u (nu.set i ⟨old.node, merge_weights weight old.weight, old.observables⟩) }
    | none => .error .out_of_bounds

/-- `pm::IntermediateWeightedGraph::handle_dem_instruction(p, detectors, observables)`:
two detectors insert-or-merge an edge of weight `log((1−p)/p)`, one detector
insert-or-merges a boundary edge of the same weight, anything else is a no-op. -/
noncomputable def handle_dem_instruction (g : IntermediateWeightedGraph) (p : ℝ)
    (detectors observables : List Nat) : Except GraphError IntermediateWeightedGraph :=
  match detectors with
  | [d0, d1] => add_or_merge_edge g d0 d1 (Real.log ((1 - p) / p)) observables
  | [d0] => add_or_merge_boundary_edge g d0 (Real.log ((1 - p) / p)) observables
  | _ => .ok g

/-- `pm::IntermediateWeightedGraph::max_abs_weight()`: the maximum of
`|weight|` over every adjacency entry, starting from `0`. -/
noncomputable def max_abs_weight (g : IntermediateWeightedGraph) : ℝ :=
  g.nodes.foldl (fun m nu => nu.foldl (fun m2 nb => max m2 |nb.weight|) m) 0

/-! ### Arithmetic lemmas about `merge_weights` -/

/-- The signed-minimum part of `merge_weights` equals `max(a+b,0) − max(a,b)`. -/
theorem copysign_min_eq (a b : ℝ) :
    copysign1 a * copysign1 b * min |a| |b| = max (a + b) 0 - max a b := by
  unfold copysign1
  rcases lt_or_le a 0 with ha | ha
  · rcases lt_or_le b 0 with hb | hb
    · rw [if_pos ha, if_pos hb, abs_of_neg ha, abs_of_neg hb, min_neg_neg,
        max_eq_right (by linarith : a + b ≤ 0)]
      ring
    · rw [if_pos ha, if_neg (not_lt.2 hb), abs_of_neg ha, abs_of_nonneg hb,
        max_eq_right (by linarith : a ≤ b)]
      rcases le_total (a + b) 0 with h2 | h2
      · rw [max_eq_right h2, min_eq_right (by linarith : b ≤ -a)]
        ring
      · rw [max_eq_left h2, min_eq_left (by linarith : -a ≤ b)]
        ring
  · rcases lt_or_le b 0 with hb | hb
    · rw [if_neg (not_lt.2 ha), if_pos hb, abs_of_nonneg ha, abs_of_neg hb,
        max_eq_left (by linarith : b ≤ a)]
      rcases le_total (a + b) 0 with h2 | h2
      · rw [max_eq_right h2, min_eq_left (by linarith : a ≤ -b)]
        ring
      · rw [max_eq_left h2, min_eq_right (by linarith : -b ≤ a)]
        ring
    · rw [if_neg (not_lt.2 ha), if_neg (not_lt.2 hb), abs_of_nonneg ha, abs_of_nonneg hb,
        max_eq_left (by linarith : (0:ℝ) ≤ a + b)]
      have h3 := min_add_max a b
      linarith

/-- Soft-plus split: `log(1+eˣ) = max(x,0) + log(1+e^(−|x|))`. -/
theorem log_one_add_exp (x : ℝ) :
    Real.log (1 + Real.exp x) = max x 0 + Real.log (1 + Real.exp (-|x|)) := by
  rcases le_or_lt 0 x with hx | hx
  · rw [abs_of_nonneg hx, max_eq_left hx]
    have h1 : (1 : ℝ) + Real.exp x = Real.exp x * (1 + Real.exp (-x)) := by
      have h2 : Real.exp x * Real.exp (-x) = 1 := by
        rw [← Real.exp_add]
        simp
      rw [mul_add, mul_one, h2]
      ring
    rw [h1, Real.log_mul (Real.exp_ne_zero x) (by positivity), Real.log_exp]
  · rw [abs_of_neg hx, neg_neg, max_eq_right hx.le, zero_add]

/-- `log(eᵃ+eᵇ) = a + log(1+e^(b−a))`. -/
theorem log_exp_add_exp_left (a b : ℝ) :
    Real.log (Real.exp a + Real.exp b) = a + Real.log (1 + Real.exp (b - a)) := by
  have h1 : Real.exp a + Real.exp b = Real.exp a * (1 + Real.exp (b - a)) := by
    have h2 : Real.exp a * Real.exp (b - a) = Real.exp b := by
      rw [← Real.exp_add]
      congr 1
      ring
    rw [mul_add, mul_one, h2]
  rw [h1, Real.log_mul (Real.exp_ne_zero a) (by positivity), Real.log_exp]

/-- Stable log-sum-exp: `log(eᵃ+eᵇ) = max(a,b) + log(1+e^(−|a−b|))`. -/
theorem log_exp_add_exp (a b : ℝ) :
    Real.log (Real.exp a + Real.exp b) = max a b + Real.log (1 + Real.exp (-|a - b|)) := by
  rcases le_total b a with h | h
  · rw [max_eq_left h, abs_of_nonneg (sub_nonneg.2 h), neg_sub, log_exp_add_exp_left]
  · rw [max_eq_right h, abs_sub_comm, abs_of_nonneg (sub_nonneg.2 h), neg_sub,
      add_comm (Real.exp a), log_exp_add_exp_left]

/-- The source's stable expression for `merge_weights` equals the naive
log-odds combination `log(1+e^(a+b)) − log(eᵃ+eᵇ)`. -/
theorem merge_weights_eq_log (a b : ℝ) :
    merge_weights a b = Real.log (1 + Real.exp (a + b)) - Real.log (Real.exp a + Real.exp b) := by
  unfold merge_weights
  rw [copysign_min_eq a b, log_one_add_exp (a + b), log_exp_add_exp a b]
  ring

/-- C3: `merge_weights` is commutative — for all (real-modelled double)
inputs `a` and `b`, `merge_weights(a, b) = merge_weights(b, a)`. -/
theorem merge_weights_comm (a b : ℝ) : merge_weights a b = merge_weights b a := by
  unfold merge_weights
  rw [mul_comm (copysign1 a) (copysign1 b), min_comm, abs_sub_comm, add_comm a b]

/-- C4: for probabilities `0 < pa < 1` and `0 < pb < 1`, merging the
log-likelihood weights `log((1−pa)/pa)` and `log((1−pb)/pb)` with
`merge_weights` gives exactly `log((1−p)/p)` for the combined probability
`p = pa(1−pb) + pb(1−pa)`. -/
theorem merge_weights_closed_form (pa pb : ℝ)
    (ha0 : 0 < pa) (ha1 : pa < 1) (hb0 : 0 < pb) (hb1 : pb < 1) :
    merge_weights (Real.log ((1 - pa) / pa)) (Real.log ((1 - pb) / pb)) =
      Real.log ((1 - (pa * (1 - pb) + pb * (1 - pa))) / (pa * (1 - pb) + pb * (1 - pa))) := by
  have hA : (0:ℝ) < (1 - pa) / pa := div_pos (by linarith) ha0
  have hB : (0:ℝ) < (1 - pb) / pb := div_pos (by linarith) hb0
  have hP : (0:ℝ) < pa * (1 - pb) + pb * (1 - pa) :=
    add_pos (mul_pos ha0 (by linarith)) (mul_pos hb0 (by linarith))
  have hden : (0:ℝ) < (1 - pa) / pa + (1 - pb) / pb := add_pos hA hB
  have hnum : (0:ℝ) < 1 + (1 - pa) / pa * ((1 - pb) / pb) :=
    add_pos one_pos (mul_pos hA hB)
  rw [merge_weights_eq_log, Real.exp_add, Real.exp_log hA, Real.exp_log hB]
  have hfrac : (1 - (pa * (1 - pb) + pb * (1 - pa))) / (pa * (1 - pb) + pb * (1 - pa))
      = (1 + (1 - pa) / pa * ((1 - pb) / pb)) / ((1 - pa) / pa + (1 - pb) / pb) := by
    rw [div_eq_div_iff hP.ne' hden.ne']
    field_simp
    ring
  rw [hfrac, Real.log_div hnum.ne' hden.ne']

/-- Witness for `merge_weights_closed_form` at `pa = pb = 1/2`. -/
theorem merge_weights_closed_form_witness :
    (0:ℝ) < 1/2 ∧ (1:ℝ)/2 < 1 ∧
      merge_weights (Real.log ((1 - 1/2) / (1/2))) (Real.log ((1 - 1/2) / (1/2))) =
        Real.log ((1 - (1/2 * (1 - 1/2) + 1/2 * (1 - 1/2))) /
          (1/2 * (1 - 1/2) + 1/2 * (1 - 1/2))) :=
  ⟨one_half_pos, one_half_lt_one,
    merge_weights_closed_form (1/2) (1/2) one_half_pos one_half_lt_one
      one_half_pos one_half_lt_one⟩

/-! ### Lemmas about the adjacency-list primitives -/

/-- `List.getD` of an in-range index agrees with `getElem?`. -/
theorem getD_of_getElem? {α : Type} {l : List α} {i : Nat} {a : α} (d : α)
    (h : l[i]? = some a) : l.getD i d = a := by
  simp [List.getD, h]

/-- If no adjacency entry points at `t`, the `find_if` scan comes back empty. -/
theorem findEdgeIdx_eq_none (l : List Neighbor) (t : Option Nat)
    (h : ∀ nb ∈ l, nb.node ≠ t) : findEdgeIdx l t = none := by
  induction l with
  | nil => rfl
  | cons nb rest ih =>
    simp only [findEdgeIdx]
    rw [if_neg (h nb (List.mem_cons_self nb rest)),
      ih (fun x hx => h x (List.mem_cons_of_mem nb hx))]
    rfl

/-- The `size_t` range check of `add_or_merge_edge` passes for in-range
endpoints. -/
theorem edge_range_check_passes {g : IntermediateWeightedGraph} {u v : Nat}
    (hr : max u v < g.nodes.length) : ¬ (g.nodes.length < (max u v + 1) % USIZE) := by
  have h1 : (max u v + 1) % USIZE ≤ max u v + 1 := Nat.mod_le _ _
  omega

/-- The `size_t` range check of `add_or_merge_boundary_edge` passes for an
in-range node of a graph whose node count is representable in `size_t`. -/
theorem boundary_range_check_passes {g : IntermediateWeightedGraph} {u : Nat}
    (hsize : g.nodes.length ≤ USIZE) (hu : u < g.nodes.length) :
    ¬ ((g.nodes.length + USIZE - 1) % USIZE < u) := by
  have hU : 0 < USIZE := by norm_num [USIZE]
  have h1 : g.nodes.length + USIZE - 1 = (g.nodes.length - 1) + USIZE := by omega
  rw [h1, Nat.add_mod_right]
  have h2 : (g.nodes.length - 1) % USIZE = g.nodes.length - 1 :=
    Nat.mod_eq_of_lt (by omega)
  rw [h2]
  omega

/-! ### Claim theorems about edge insertion -/

/-- C1: an error mechanism with probability `p ∈ (0,1)` triggering exactly two
in-range detectors `u ≠ v` with no prior `u`–`v` edge makes
`handle_dem_instruction` insert an edge of weight `log((1−p)/p)` with
observable mask `O`, appended symmetrically to both adjacency lists; with
exactly one in-range detector carrying no prior boundary edge it appends a
boundary entry of the same weight and mask to that detector's list. -/
theorem handle_dem_instruction_inserts_edges
    (g : IntermediateWeightedGraph) (p : ℝ) (u v : Nat) (O : List Nat)
    (nu nv : List Neighbor)
    (hp0 : 0 < p) (hp1 : p < 1)
    (hsize : g.nodes.length ≤ USIZE)
    (hr : max u v < g.nodes.length)
    (huv : u ≠ v)
    (hnu : g.nodes[u]? = some nu)
    (hnv : g.nodes[v]? = some nv)
    (hnoedge : ∀ nb ∈ nu, nb.node ≠ some v)
    (hnobnd : ∀ nb ∈ nu, nb.node ≠ none) :
    handle_dem_instruction g p [u, v] O =
      .ok { g with nodes := (g.nodes.set u (nu ++ [⟨some v, Real.log ((1 - p) / p), O⟩])).set v (nv ++ [⟨some u, Real.log ((1 - p) / p), O⟩]) } ∧
    handle_dem_instruction g p [u] O =
      .ok { g with nodes := g.nodes.set u (nu ++ [⟨none, Real.log ((1 - p) / p), O⟩]) } := by
  have hu : u < g.nodes.length := lt_of_le_of_lt (le_max_left u v) hr
  constructor
  · have hstep : handle_dem_instruction g p [u, v] O
        = add_or_merge_edge g u v (Real.log ((1 - p) / p)) O := rfl
    have hfind := findEdgeIdx_eq_none nu (some v) hnoedge
    have hset : (g.nodes.set u (nu ++ [⟨some v, Real.log ((1 - p) / p), O⟩]))[v]? = some nv := by
      rw [List.getElem?_set_ne huv]
      exact hnv
    rw [hstep]
    simp only [add_or_merge_edge, if_neg (edge_range_check_passes hr), hnu, hnv, hfind, hset]
  · have hstep : handle_dem_instruction g p [u] O
        = add_or_merge_boundary_edge g u (Real.log ((1 - p) / p)) O := rfl
    have hfind := findEdgeIdx_eq_none nu none hnobnd
    rw [hstep]
    simp only [add_or_merge_boundary_edge,
      if_neg (boundary_range_check_passes hsize hu), hnu, hfind]

/-- Witness for `handle_dem_instruction_inserts_edges`: inserting the edge
`{0,1}` and a boundary edge on `0` into a fresh two-node graph at `p = 1/2`. -/
theorem handle_dem_instruction_inserts_edges_witness :
    (0:ℝ) < 1/2 ∧ (1:ℝ)/2 < 1 ∧
    handle_dem_instruction (emptyGraph 2 1) (1/2) [0, 1] [0] =
      .ok ⟨2, 1, [[⟨some 1, Real.log ((1 - 1/2) / (1/2)), [0]⟩],
                  [⟨some 0, Real.log ((1 - 1/2) / (1/2)), [0]⟩]]⟩ ∧
    handle_dem_instruction (emptyGraph 2 1) (1/2) [0] [0] =
      .ok ⟨2, 1, [[⟨none, Real.log ((1 - 1/2) / (1/2)), [0]⟩], []]⟩ :=
  ⟨one_half_pos, one_half_lt_one,
    (handle_dem_instruction_inserts_edges (emptyGraph 2 1) (1/2) 0 1 [0] [] []
      one_half_pos one_half_lt_one (by decide) (by decide) (by decide) rfl rfl
      (by simp) (by simp)).1,
    (handle_dem_instruction_inserts_edges (emptyGraph 2 1) (1/2) 0 1 [0] [] []
      one_half_pos one_half_lt_one (by decide) (by decide) (by decide) rfl rfl
      (by simp) (by simp)).2⟩

/-- C2 (divergence witness): on a zero-node graph the `size_t` subtraction in
the range check `u > nodes.size() - 1` wraps to `2^64 − 1`, so the call
`add_or_merge_boundary_edge(0, ...)` is not rejected with the invalid-argument
report — it falls through to an out-of-bounds `nodes[0]` access. -/
theorem add_or_merge_boundary_edge_zero_nodes_bug :
    add_or_merge_boundary_edge (emptyGraph 0 0) 0 0 [] = .error .out_of_bounds ∧
      GraphError.out_of_bounds ≠ GraphError.invalid_argument :=
  ⟨rfl, by decide⟩

/-- C9: merging into an existing `u`–`v` edge rewrites only the weight field
(to `merge_weights(old, new)`) of the matching entry in each endpoint's list,
keeping the stored neighbor and observables and discarding the new call's
observables; merging into an existing boundary edge likewise rewrites only
that entry's weight (to `merge_weights(new, old)`). -/
theorem add_or_merge_existing_edge_updates_only_weight
    (g : IntermediateWeightedGraph) (u v : Nat) (w : ℝ) (obs2 : List Nat)
    (nu nv : List Neighbor) (i j k : Nat) (old oldr oldb : Neighbor)
    (hsize : g.nodes.length ≤ USIZE)
    (hu : u < g.nodes.length) (hv : v < g.nodes.length) (huv : u ≠ v)
    (hnu : g.nodes[u]? = some nu) (hnv : g.nodes[v]? = some nv)
    (hfind : findEdgeIdx nu (some v) = some i) (hold : nu[i]? = some old)
    (hfind2 : findEdgeIdx nv (some u) = some j) (holdr : nv[j]? = some oldr)
    (hfindb : findEdgeIdx nu none = some k) (holdb : nu[k]? = some oldb) :
    add_or_merge_edge g u v w obs2 =
      .ok { g with nodes := (g.nodes.set u (nu.set i ⟨old.node, merge_weights old.weight w, old.observables⟩)).set v (nv.set j ⟨oldr.node, merge_weights old.weight w, oldr.observables⟩) } ∧
    add_or_merge_boundary_edge g u w obs2 =
      .ok { g with nodes := g.nodes.set u (nu.set k ⟨oldb.node, merge_weights w oldb.weight, oldb.observables⟩) } := by
  constructor
  · have hr : max u v < g.nodes.length := max_lt hu hv
    have hgetD : nu.getD i dNeighbor = old := getD_of_getElem? dNeighbor hold
    have hgetDr : nv.getD j dNeighbor = oldr := getD_of_getElem? dNeighbor holdr
    have hset : (g.nodes.set u
        (nu.set i ⟨old.node, merge_weights old.weight w, old.observables⟩))[v]? = some nv := by
      rw [List.getElem?_set_ne huv]
      exact hnv
    simp only [add_or_merge_edge, if_neg (edge_range_check_passes hr), hnu, hnv,
      hfind, hgetD, hset, hfind2, hgetDr]
  · have hgetDb : nu.getD k dNeighbor = oldb := getD_of_getElem? dNeighbor holdb
    simp only [add_or_merge_boundary_edge,
      if_neg (boundary_range_check_passes hsize hu), hnu, hfindb, hgetDb]

/-- Concrete two-node graph with a symmetric `0`–`1` edge and a boundary edge
on node `0`, used to witness the merge behaviour. -/
def wGraph9 : IntermediateWeightedGraph :=
  ⟨2, 3, [[⟨some 1, 3, [0]⟩, ⟨none, 5, [2]⟩], [⟨some 0, 3, [0]⟩]]⟩

/-! ### The discretised graphs, the flooders and the Mwpm -/

/-- A tentative event of the flooder's priority queue: its firing time, the
FIFO tie-break sequence number, whether its validity tokens are still current,
and the region whose boundary it touches. -/
structure TentativeEvent where
  time : Int
  seq : Nat
  valid : Bool
  region : Nat
deriving DecidableEq

/-- Modelled from the spec: `TentativeEvent::operator>` (events.h is not among
the sources at hand) — events are ordered by firing time, with ties broken by
the enqueue sequence number. -/
def event_gt (a b : TentativeEvent) : Bool :=
  decide (b.time < a.time) || (a.time == b.time && decide (b.seq < a.seq))

/-- `pm::Compare` from the source: the `std::priority_queue` comparator
`*a > *b`, which makes the queue a min-heap on event time. -/
def Compare (a b : TentativeEvent) : Bool := event_gt a b

/-- Pop the minimum event (w.r.t. `Compare`) from the queue. -/
def pop_min : List TentativeEvent → Option (TentativeEvent × List TentativeEvent)
  | [] => none
  | e :: rest =>
    match pop_min rest with
    | none => some (e, [])
    | some (m, rest2) => if Compare e m then some (m, e :: rest2) else some (e, rest)

/-- `pm::MatchingGraph` shape: node and observable counts, recorded edges and
boundary edges with integer (`signed_weight_int`) weights, and the normalising
constant set by `to_matching_graph`. -/
structure MatchingGraph where
  num_nodes : Nat
  num_observables : Nat
  edges : List (Nat × Nat × Int × List Nat)
  boundary_edges : List (Nat × Int × List Nat)
  normalising_constant : ℝ

/-- Modelled from the spec: `MatchingGraph::add_edge` (graph.h is not among
the sources at hand) — the graph "stores adjacency with per-edge integer
weight and an observable mask", so adding an edge records it. -/
def MatchingGraph.add_edge (m : MatchingGraph) (u v : Nat) (w : Int) (obs : List Nat) :
    MatchingGraph :=
  { m with edges := m.edges ++ [(u, v, w, obs)] }

/-- Modelled from the spec: `MatchingGraph::add_boundary_edge` — records the
boundary edge. -/
def MatchingGraph.add_boundary_edge (m : MatchingGraph) (u : Nat) (w : Int) (obs : List Nat) :
    MatchingGraph :=
  { m with boundary_edges := m.boundary_edges ++ [(u, w, obs)] }

/-- `pm::SearchGraph` shape: like `MatchingGraph` but with arbitrary-length
observable masks and no normalising constant. -/
structure SearchGraph where
  num_nodes : Nat
  edges : List (Nat × Nat × Int × List Nat)
  boundary_edges : List (Nat × Int × List Nat)

/-- Modelled from the spec: `SearchGraph::add_edge` — records the edge. -/
def SearchGraph.add_edge (s : SearchGraph) (u v : Nat) (w : Int) (obs : List Nat) : SearchGraph :=
  { s with edges := s.edges ++ [(u, v, w, obs)] }

/-- Modelled from the spec: `SearchGraph::add_boundary_edge` — records the
boundary edge. -/
def SearchGraph.add_boundary_edge (s : SearchGraph) (u : Nat) (w : Int) (obs : List Nat) :
    SearchGraph :=
  { s with boundary_edges := s.boundary_edges ++ [(u, w, obs)] }

/-- Modelled from the spec: the weight discretisation used by
`iter_discretized_edges` (declared in the sources but defined elsewhere in the
repository). The spec says the consumer "discretises weights into non-negative
integers across `N` distinct weight levels, producing a normalising constant",
so a weight `w` maps to the non-negative integer level `round(|w|·c)`. -/
noncomputable def discretize_weight (c : ℝ) (w : ℝ) : Int :=
  ((round (|w| * c)).toNat : Int)

/-- Modelled from the spec: the normalising constant spreads the maximum
absolute weight over the `N − 1` non-zero levels. -/
noncomputable def normalising_constant_of (g : IntermediateWeightedGraph) (N : Nat) : ℝ :=
  ((N : ℝ) - 1) / max_abs_weight g

/-- Modelled from the spec: the edge half of `iter_discretized_edges` — every
undirected edge `{u,v}` (stored in both adjacency lists, reported once via
`u < v`) with its discretised weight and stored observables. -/
noncomputable def discretized_edges (g : IntermediateWeightedGraph) (c : ℝ) :
    List (Nat × Nat × Int × List Nat) :=
  (List.range g.nodes.length).flatMap (fun u =>
    (g.nodes.getD u []).filterMap (fun nb =>
      match nb.node with
      | some v => if u < v then some (u, v, discretize_weight c nb.weight, nb.observables) else none
      | none => none))

/-- Modelled from the spec: the boundary half of `iter_discretized_edges`. -/
noncomputable def discretized_boundary_edges (g : IntermediateWeightedGraph) (c : ℝ) :
    List (Nat × Int × List Nat) :=
  (List.range g.nodes.length).flatMap (fun u =>
    (g.nodes.getD u []).filterMap (fun nb =>
      match nb.node with
      | some _ => none
      | none => some (u, discretize_weight c nb.weight, nb.observables)))

/-- `pm::IntermediateWeightedGraph::to_matching_graph` from the source: build
a `MatchingGraph` over the same node and observable counts, feed every
discretised edge and boundary edge through `add_edge`/`add_boundary_edge`, and
record the normalising constant. -/
noncomputable def to_matching_graph (g : IntermediateWeightedGraph) (N : Nat) : MatchingGraph :=
  let c := normalising_constant_of g N
  let m0 : MatchingGraph := ⟨g.nodes.length, g.num_observables, [], [], 0⟩
  let m1 := (discretized_edges g c).foldl (fun m e => m.add_edge e.1 e.2.1 e.2.2.1 e.2.2.2) m0
  let m2 := (discretized_boundary_edges g c).foldl
    (fun m b => m.add_boundary_edge b.1 b.2.1 b.2.2) m1
  { m2 with normalising_constant := c }

/-- `pm::IntermediateWeightedGraph::to_search_graph` from the source:
identical to `to_matching_graph` but producing a `SearchGraph`. -/
noncomputable def to_search_graph (g : IntermediateWeightedGraph) (N : Nat) : SearchGraph :=
  let c := normalising_constant_of g N
  let s0 : SearchGraph := ⟨g.nodes.length, [], []⟩
  let s1 := (discretized_edges g c).foldl (fun s e => s.add_edge e.1 e.2.1 e.2.2.1 e.2.2.2) s0
  (discretized_boundary_edges g c).foldl (fun s b => s.add_boundary_edge b.1 b.2.1 b.2.2) s1

/-- `pm::GraphFlooder`: the matching graph, the priority queue of tentative
events, and the logical clock (from the source header); the per-region growth
rates and the negative-weight bookkeeping are modelled from the spec. -/
structure GraphFlooder where
  graph : MatchingGraph
  queue : List TentativeEvent
  time : Int
  growth_rates : List Int
  negative_weight_obs : List Nat
  negative_weight_detection_events : List Nat

/-- The source's `GraphFlooder(Graph&)` constructor: empty queue, clock at
zero. -/
def GraphFlooder.ofGraph (g : MatchingGraph) : GraphFlooder := ⟨g, [], 0, [], [], []⟩

/-- Toggle membership of `x` (an XOR of one bit of a mask or one detection
event). -/
def toggle_detection (l : List Nat) (x : Nat) : List Nat :=
  if x ∈ l then l.erase x else l ++ [x]

/-- XOR a whole observable mask into an accumulated mask. -/
def xor_obs (acc : List Nat) (obs : List Nat) : List Nat := obs.foldl toggle_detection acc

/-- Modelled from the spec:
`GraphFlooder::sync_negative_weight_observables_and_detection_events` (defined
outside the sources at hand) canonicalises every negative-weight edge by
taking the weight's absolute value, XOR-ing the edge's observables into a
running boundary mask and toggling its endpoints' detection events. -/
def sync_negative_weight_observables_and_detection_events (f : GraphFlooder) : GraphFlooder :=
  let negE := f.graph.edges.filter (fun e => decide (e.2.2.1 < 0))
  let negB := f.graph.boundary_edges.filter (fun b => decide (b.2.1 < 0))
  { f with
    graph := { f.graph with edges := f.graph.edges.map (fun e => (e.1, e.2.1, |e.2.2.1|, e.2.2.2)), boundary_edges := f.graph.boundary_edges.map (fun b => (b.1, |b.2.1|, b.2.2)) },
    negative_weight_obs := negE.foldl (fun a e => xor_obs a e.2.2.2) (negB.foldl (fun a b => xor_obs a b.2.2) []),
    negative_weight_detection_events := negE.foldl (fun a e => toggle_detection (toggle_detection a e.1) e.2.1) (negB.foldl (fun a b => toggle_detection a b.1) []) }

/-- Modelled from the spec: the bit width of the matching graph's fixed-width
observable mask word `pm::obs_int` (defined outside the sources at hand), "up
to the machine word": `sizeof(obs_int) * 8 = 64`. -/
def obs_int_bits : Nat := 64

/-- `pm::SearchFlooder`: the search flooder over its `SearchGraph`. -/
structure SearchFlooder where
  graph : SearchGraph

/-- `pm::Mwpm`: the matching flooder plus, optionally, the search flooder. -/
structure Mwpm where
  flooder : GraphFlooder
  search_flooder : Option SearchFlooder

/-- `pm::IntermediateWeightedGraph::to_mwpm` from the source: constructs the
Mwpm with a search flooder exactly when `num_observables > sizeof(obs_int)*8`,
then synchronises negative weights on the matching flooder. -/
noncomputable def to_mwpm (g : IntermediateWeightedGraph) (N : Nat) : Mwpm :=
  if obs_int_bits < g.num_observables then
    let mwpm : Mwpm := ⟨GraphFlooder.ofGraph (to_matching_graph g N), some ⟨to_search_graph g N⟩⟩
    { mwpm with flooder := sync_negative_weight_observables_and_detection_events mwpm.flooder }
  else
    let mwpm : Mwpm := ⟨GraphFlooder.ofGraph (to_matching_graph g N), none⟩
    { mwpm with flooder := sync_negative_weight_observables_and_detection_events mwpm.flooder }

/-- Fuel-indexed body of `next_event`; the fuel is an upper bound on the queue
length, so it never runs out. -/
def next_event_aux : Nat → GraphFlooder → Option (TentativeEvent × GraphFlooder)
  | 0, _ => none
  | n + 1, f =>
    match pop_min f.queue with
    | none => none
    | some (e, rest) =>
      if e.valid then some (e, { f with time := e.time, queue := rest })
      else next_event_aux n { f with queue := rest }

/-- Modelled from the spec: `GraphFlooder::next_event` (declared in the source
header, defined elsewhere in the repository) pops events in the priority order
of the source's `Compare`, silently dropping events whose validity token is
stale, advances the clock to the first live event's time and returns that
event. -/
def next_event (f : GraphFlooder) : Option (TentativeEvent × GraphFlooder) :=
  next_event_aux f.queue.length f

/-- Enqueue freshly scheduled tentative events. -/
def schedule_events (f : GraphFlooder) (new : List TentativeEvent) : GraphFlooder :=
  { f with queue := f.queue ++ new }

/-- Modelled from the spec: `GraphFlooder::reschedule_events_for_region`
(declared in the source header, defined elsewhere in the repository) — on a
growth-rate change every tentative event touching the region's boundary is
rescheduled: the stale events' validity tokens are advanced so they are
discarded on pop, and recomputed events are enqueued by the scheduling
routines. The model records the invalidation of the stale events. -/
def reschedule_events_for_region (f : GraphFlooder) (r : Nat) : GraphFlooder :=
  { f with queue := f.queue.map (fun e => if e.region = r then { e with valid := false } else e) }

/-- Modelled from the spec: `GraphFlooder::set_region_growth` (declared in the
source header, defined elsewhere in the repository) assigns the region's
growth rate and then reschedules the events touching the region's boundary. -/
def set_region_growth (f : GraphFlooder) (r : Nat) (rate : Int) : GraphFlooder :=
  reschedule_events_for_region { f with growth_rates := f.growth_rates.set r rate } r

/-- Witness for `add_or_merge_existing_edge_updates_only_weight` on `wGraph9`. -/
theorem add_or_merge_existing_edge_updates_only_weight_witness :
    findEdgeIdx [⟨some 1, 3, [0]⟩, ⟨none, 5, [2]⟩] (some 1) = some 0 ∧
    findEdgeIdx [⟨some 1, 3, [0]⟩, ⟨none, 5, [2]⟩] none = some 1 ∧
    add_or_merge_edge wGraph9 0 1 7 [1] =
      .ok ⟨2, 3, [[⟨some 1, merge_weights 3 7, [0]⟩, ⟨none, 5, [2]⟩],
                  [⟨some 0, merge_weights 3 7, [0]⟩]]⟩ ∧
    add_or_merge_boundary_edge wGraph9 0 7 [1] =
      .ok ⟨2, 3, [[⟨some 1, 3, [0]⟩, ⟨none, merge_weights 7 5, [2]⟩],
                  [⟨some 0, 3, [0]⟩]]⟩ :=
  ⟨rfl, rfl,
    (add_or_merge_existing_edge_updates_only_weight wGraph9 0 1 7 [1] _ _ 0 0 1 _ _ _
      (by decide) (by decide) (by decide) (by decide) rfl rfl rfl rfl rfl rfl rfl rfl).1,
    (add_or_merge_existing_edge_updates_only_weight wGraph9 0 1 7 [1] _ _ 0 0 1 _ _ _
      (by decide) (by decide) (by decide) (by decide) rfl rfl rfl rfl rfl rfl rfl rfl).2⟩

/-! ### Discretisation and Mwpm construction: claims C5 and C6 -/

/-- Folding `add_edge` only appends the given edges. -/
theorem foldl_add_edge_edges (l : List (Nat × Nat × Int × List Nat)) :
    ∀ m : MatchingGraph,
      (l.foldl (fun m e => m.add_edge e.1 e.2.1 e.2.2.1 e.2.2.2) m).edges = m.edges ++ l := by
  induction l with
  | nil => intro m; simp
  | cons e rest ih =>
    intro m
    rw [List.foldl_cons, ih]
    simp [MatchingGraph.add_edge]

/-- Folding `add_edge` leaves the boundary edges alone. -/
theorem foldl_add_edge_boundary (l : List (Nat × Nat × Int × List Nat)) :
    ∀ m : MatchingGraph,
      (l.foldl (fun m e => m.add_edge e.1 e.2.1 e.2.2.1 e.2.2.2) m).boundary_edges =
        m.boundary_edges := by
  induction l with
  | nil => intro m; rfl
  | cons e rest ih =>
    intro m
    rw [List.foldl_cons, ih]
    rfl

/-- Folding `add_boundary_edge` only appends the given boundary edges. -/
theorem foldl_add_boundary_boundary (l : List (Nat × Int × List Nat)) :
    ∀ m : MatchingGraph,
      (l.foldl (fun m b => m.add_boundary_edge b.1 b.2.1 b.2.2) m).boundary_edges =
        m.boundary_edges ++ l := by
  induction l with
  | nil => intro m; simp
  | cons b rest ih =>
    intro m
    rw [List.foldl_cons, ih]
    simp [MatchingGraph.add_boundary_edge]

/-- Folding `add_boundary_edge` leaves the edges alone. -/
theorem foldl_add_boundary_edges (l : List (Nat × Int × List Nat)) :
    ∀ m : MatchingGraph,
      (l.foldl (fun m b => m.add_boundary_edge b.1 b.2.1 b.2.2) m).edges = m.edges := by
  induction l with
  | nil => intro m; rfl
  | cons b rest ih =>
    intro m
    rw [List.foldl_cons, ih]
    rfl

/-- The edges handed to the `MatchingGraph` by `to_matching_graph` are exactly
the discretised edges. -/
theorem to_matching_graph_edges (g : IntermediateWeightedGraph) (N : Nat) :
    (to_matching_graph g N).edges = discretized_edges g (normalising_constant_of g N) := by
  simp [to_matching_graph, foldl_add_boundary_edges, foldl_add_edge_edges]

/-- The boundary edges handed to the `MatchingGraph` by `to_matching_graph`
are exactly the discretised boundary edges. -/
theorem to_matching_graph_boundary (g : IntermediateWeightedGraph) (N : Nat) :
    (to_matching_graph g N).boundary_edges =
      discretized_boundary_edges g (normalising_constant_of g N) := by
  simp [to_matching_graph, foldl_add_boundary_boundary, foldl_add_edge_boundary]

/-- Discretised weights are non-negative. -/
theorem discretize_weight_nonneg (c w : ℝ) : 0 ≤ discretize_weight c w := by
  unfold discretize_weight
  exact Int.natCast_nonneg _

/-- Every discretised edge carries a non-negative weight. -/
theorem mem_discretized_edges_weight_nonneg {g : IntermediateWeightedGraph} {c : ℝ}
    {e : Nat × Nat × Int × List Nat} (h : e ∈ discretized_edges g c) : 0 ≤ e.2.2.1 := by
  unfold discretized_edges at h
  obtain ⟨u, hu, he⟩ := List.mem_flatMap.1 h
  obtain ⟨nb, hnb, hfm⟩ := List.mem_filterMap.1 he
  cases hn : nb.node with
  | none =>
    simp only [hn] at hfm
    exact Option.noConfusion hfm
  | some v =>
    simp only [hn] at hfm
    by_cases huv : u < v
    · rw [if_pos huv] at hfm
      cases hfm
      exact discretize_weight_nonneg c nb.weight
    · rw [if_neg huv] at hfm
      exact Option.noConfusion hfm

/-- Every discretised boundary edge carries a non-negative weight. -/
theorem mem_discretized_boundary_edges_weight_nonneg {g : IntermediateWeightedGraph} {c : ℝ}
    {b : Nat × Int × List Nat} (h : b ∈ discretized_boundary_edges g c) : 0 ≤ b.2.1 := by
  unfold discretized_boundary_edges at h
  obtain ⟨u, hu, hb⟩ := List.mem_flatMap.1 h
  obtain ⟨nb, hnb, hfm⟩ := List.mem_filterMap.1 hb
  cases hn : nb.node with
  | some v =>
    simp only [hn] at hfm
    exact Option.noConfusion hfm
  | none =>
    simp only [hn] at hfm
    cases hfm
    exact discretize_weight_nonneg c nb.weight

/-- C6: for every graph and every number of distinct weight levels, every
discretised edge weight and boundary-edge weight that `to_matching_graph`
passes to the `MatchingGraph` is a non-negative integer. -/
theorem to_matching_graph_weights_nonneg (g : IntermediateWeightedGraph) (N : Nat) :
    ((to_matching_graph g N).edges.all (fun e => decide (0 ≤ e.2.2.1)) = true) ∧
    ((to_matching_graph g N).boundary_edges.all (fun b => decide (0 ≤ b.2.1)) = true) := by
  constructor
  · rw [to_matching_graph_edges, List.all_eq_true]
    intro e he
    exact decide_eq_true (mem_discretized_edges_weight_nonneg he)
  · rw [to_matching_graph_boundary, List.all_eq_true]
    intro b hb
    exact decide_eq_true (mem_discretized_boundary_edges_weight_nonneg hb)

/-- C5: `to_mwpm` equips the result with a search flooder — built over
`to_search_graph` — exactly when the observable count strictly exceeds the
`obs_int` mask width; otherwise only the matching flooder is present. -/
theorem to_mwpm_search_flooder_iff (g : IntermediateWeightedGraph) (N : Nat) :
    (to_mwpm g N).search_flooder =
      (if obs_int_bits < g.num_observables then some ⟨to_search_graph g N⟩ else none) ∧
    ((to_mwpm g N).search_flooder.isSome = true ↔ obs_int_bits < g.num_observables) := by
  by_cases h : obs_int_bits < g.num_observables
  · refine ⟨?_, ?_⟩ <;> simp [to_mwpm, h]
  · refine ⟨?_, ?_⟩ <;> simp [to_mwpm, h]

/-! ### The event queue: claims C7 and C8 -/

/-- `pop_min` returns `none` exactly on the empty queue. -/
theorem pop_min_eq_none_iff (q : List TentativeEvent) : pop_min q = none ↔ q = [] := by
  cases q with
  | nil => simp [pop_min]
  | cons x xs =>
    simp only [pop_min]
    constructor
    · intro h
      exfalso
      revert h
      cases hp : pop_min xs with
      | none => simp
      | some pr =>
        obtain ⟨m, r⟩ := pr
        by_cases hc : Compare x m <;> simp [hc]
    · intro h
      exact List.noConfusion h

/-- Popping the minimum removes exactly one element. -/
theorem pop_min_length : ∀ {q : List TentativeEvent} {e : TentativeEvent}
    {rest : List TentativeEvent}, pop_min q = some (e, rest) → rest.length + 1 = q.length := by
  intro q
  induction q with
  | nil => intro e rest h; exact Option.noConfusion h
  | cons x xs ih =>
    intro e rest h
    simp only [pop_min] at h
    cases hp : pop_min xs with
    | none =>
      have hxs := (pop_min_eq_none_iff xs).1 hp
      subst hxs
      simp only [hp] at h
      cases h
      rfl
    | some pr =>
      obtain ⟨m, rest2⟩ := pr
      simp only [hp] at h
      have hlen := ih hp
      by_cases hc : Compare x m
      · rw [if_pos hc] at h
        cases h
        simpa using hlen
      · rw [if_neg hc] at h
        cases h
        rfl

/-- The popped event was in the queue. -/
theorem pop_min_mem : ∀ {q : List TentativeEvent} {e : TentativeEvent}
    {rest : List TentativeEvent}, pop_min q = some (e, rest) → e ∈ q := by
  intro q
  induction q with
  | nil => intro e rest h; exact Option.noConfusion h
  | cons x xs ih =>
    intro e rest h
    simp only [pop_min] at h
    cases hp : pop_min xs with
    | none =>
      simp only [hp] at h
      cases h
      exact List.mem_cons_self x xs
    | some pr =>
      obtain ⟨m, rest2⟩ := pr
      simp only [hp] at h
      by_cases hc : Compare x m
      · rw [if_pos hc] at h
        cases h
        exact List.mem_cons_of_mem x (ih hp)
      · rw [if_neg hc] at h
        cases h
        exact List.mem_cons_self x xs

/-- Every event left in the queue after a pop was in the queue before. -/
theorem pop_min_subset : ∀ {q : List TentativeEvent} {e : TentativeEvent}
    {rest : List TentativeEvent}, pop_min q = some (e, rest) → ∀ x ∈ rest, x ∈ q := by
  intro q
  induction q with
  | nil => intro e rest h; exact Option.noConfusion h
  | cons x xs ih =>
    intro e rest h
    simp only [pop_min] at h
    cases hp : pop_min xs with
    | none =>
      simp only [hp] at h
      cases h
      intro y hy
      exact absurd hy (List.not_mem_nil y)
    | some pr =>
      obtain ⟨m, rest2⟩ := pr
      simp only [hp] at h
      by_cases hc : Compare x m
      · rw [if_pos hc] at h
        cases h
        intro y hy
        rcases List.mem_cons.1 hy with hy1 | hy2
        · rw [hy1]; exact List.mem_cons_self x xs
        · exact List.mem_cons_of_mem x (ih hp y hy2)
      · rw [if_neg hc] at h
        cases h
        intro y hy
        exact List.mem_cons_of_mem x hy

/-- The popped event's time is minimal over the whole queue. -/
theorem pop_min_le : ∀ {q : List TentativeEvent} {e : TentativeEvent}
    {rest : List TentativeEvent}, pop_min q = some (e, rest) → ∀ x ∈ q, e.time ≤ x.time := by
  intro q
  induction q with
  | nil => intro e rest h; exact Option.noConfusion h
  | cons x xs ih =>
    intro e rest h
    simp only [pop_min] at h
    cases hp : pop_min xs with
    | none =>
      have hxs := (pop_min_eq_none_iff xs).1 hp
      subst hxs
      simp only [hp] at h
      cases h
      intro y hy
      rcases List.mem_cons.1 hy with hy1 | hy2
      · rw [hy1]
      · exact absurd hy2 (List.not_mem_nil y)
    | some pr =>
      obtain ⟨m, rest2⟩ := pr
      simp only [hp] at h
      have hm := ih hp
      by_cases hc : Compare x m
      · rw [if_pos hc] at h
        obtain ⟨h1, h2⟩ : m = e ∧ x :: rest2 = rest := by simpa using h
        intro y hy
        rw [← h1]
        rcases List.mem_cons.1 hy with hy1 | hy2
        · rw [hy1]
          simp only [Compare, event_gt, Bool.or_eq_true, Bool.and_eq_true,
            decide_eq_true_eq, beq_iff_eq] at hc
          rcases hc with ha | ⟨ha, hb⟩
          · exact le_of_lt ha
          · exact le_of_eq ha.symm
        · exact hm y hy2
      · rw [if_neg hc] at h
        obtain ⟨h1, h2⟩ : x = e ∧ xs = rest := by simpa using h
        intro y hy
        rw [← h1]
        rcases List.mem_cons.1 hy with hy1 | hy2
        · rw [hy1]
        · have hxm : x.time ≤ m.time := by
            simp only [Compare, event_gt, Bool.or_eq_true, Bool.and_eq_true,
              decide_eq_true_eq, beq_iff_eq] at hc
            push_neg at hc
            exact hc.1
          exact le_trans hxm (hm y hy2)

/-- Main invariant of `next_event_aux`: starting from a state whose queued
events all lie at or after the clock, a returned event lies at or after the
clock, the clock is advanced exactly to it, and the invariant is restored. -/
theorem next_event_aux_spec : ∀ (n : Nat) (f : GraphFlooder) (e : TentativeEvent)
    (f2 : GraphFlooder), (∀ x ∈ f.queue, f.time ≤ x.time) → f.queue.length ≤ n →
    next_event_aux n f = some (e, f2) →
    f.time ≤ e.time ∧ f2.time = e.time ∧ ∀ x ∈ f2.queue, f2.time ≤ x.time := by
  intro n
  induction n with
  | zero => intro f e f2 hWF hlen h; exact Option.noConfusion h
  | succ n ih =>
    intro f e f2 hWF hlen h
    simp only [next_event_aux] at h
    cases hp : pop_min f.queue with
    | none =>
      simp only [hp] at h
      exact Option.noConfusion h
    | some pr =>
      obtain ⟨m, rest⟩ := pr
      simp only [hp] at h
      by_cases hv : m.valid
      · rw [if_pos hv] at h
        cases h
        exact ⟨hWF _ (pop_min_mem hp), rfl,
          fun x hx => pop_min_le hp x (pop_min_subset hp x hx)⟩
      · rw [if_neg hv] at h
        have hWF2 : ∀ x ∈ rest, f.time ≤ x.time := fun x hx =>
          hWF x (pop_min_subset hp x hx)
        have hlen2 : rest.length ≤ n := by
          have := pop_min_length hp
          omega
        exact ih { f with queue := rest } e f2 hWF2 hlen2 h

/-- C7: across consecutive `next_event` calls — with arbitrary fresh events
scheduled in between, none earlier than the clock — the returned events'
logical times are non-decreasing and the clock never moves backwards. -/
theorem next_event_times_monotone
    (f : GraphFlooder) (newEvents : List TentativeEvent)
    (e1 e2 : TentativeEvent) (f1 f2 : GraphFlooder)
    (hWF : ∀ x ∈ f.queue, f.time ≤ x.time)
    (h1 : next_event f = some (e1, f1))
    (hnew : ∀ x ∈ newEvents, f1.time ≤ x.time)
    (h2 : next_event (schedule_events f1 newEvents) = some (e2, f2)) :
    f.time ≤ e1.time ∧ e1.time ≤ e2.time ∧ f1.time = e1.time ∧ f2.time = e2.time ∧
      f.time ≤ f1.time ∧ f1.time ≤ f2.time := by
  have s1 := next_event_aux_spec f.queue.length f e1 f1 hWF le_rfl h1
  have hWFs : ∀ x ∈ (schedule_events f1 newEvents).queue,
      (schedule_events f1 newEvents).time ≤ x.time := by
    intro x hx
    rcases List.mem_append.1 hx with hx1 | hx2
    · exact s1.2.2 x hx1
    · exact hnew x hx2
  have s2 := next_event_aux_spec (schedule_events f1 newEvents).queue.length
    (schedule_events f1 newEvents) e2 f2 hWFs le_rfl h2
  have he12 : e1.time ≤ e2.time := by
    have : (schedule_events f1 newEvents).time = f1.time := rfl
    rw [this, s1.2.1] at s2
    exact s2.1
  refine ⟨s1.1, he12, s1.2.1, s2.2.1, ?_, ?_⟩
  · rw [s1.2.1]; exact s1.1
  · rw [s2.2.1]
    have : (schedule_events f1 newEvents).time = f1.time := rfl
    rw [this] at s2
    exact s2.1

/-- Fixture matching graph for the flooder witnesses. -/
def wMatchingGraph : MatchingGraph := ⟨0, 0, [], [], 0⟩

/-- Fixture flooder: clock at `0`, two live events at times `2` and `5`. -/
def wFlooder : GraphFlooder := ⟨wMatchingGraph, [⟨2, 0, true, 0⟩, ⟨5, 1, true, 0⟩], 0, [], [], []⟩

/-- Fixture state after popping the time-`2` event from `wFlooder`. -/
def wFlooder1 : GraphFlooder := ⟨wMatchingGraph, [⟨5, 1, true, 0⟩], 2, [], [], []⟩

/-- Witness for `next_event_times_monotone`: pop the time-`2` event, schedule
a fresh time-`3` event, pop it next — times `2 ≤ 3`, clock `0 → 2 → 3`. -/
theorem next_event_times_monotone_witness :
    next_event wFlooder = some (⟨2, 0, true, 0⟩, wFlooder1) ∧
    next_event (schedule_events wFlooder1 [⟨3, 2, true, 0⟩]) =
      some (⟨3, 2, true, 0⟩, ⟨wMatchingGraph, [⟨5, 1, true, 0⟩], 3, [], [], []⟩) ∧
    ((0:Int) ≤ 2 ∧ (2:Int) ≤ 3 ∧ (2:Int) = 2 ∧ (3:Int) = 3 ∧ (0:Int) ≤ 2 ∧ (2:Int) ≤ 3) :=
  ⟨rfl, rfl,
    next_event_times_monotone wFlooder [⟨3, 2, true, 0⟩] ⟨2, 0, true, 0⟩ ⟨3, 2, true, 0⟩
      wFlooder1 ⟨wMatchingGraph, [⟨5, 1, true, 0⟩], 3, [], [], []⟩
      (by decide) rfl (by decide) rfl⟩

/-- C8: `set_region_growth` stores the requested growth rate of the region and
passes the updated state to `reschedule_events_for_region`, which reschedules
(and in particular invalidates) every pending tentative event touching the
region. -/
theorem set_region_growth_assigns_and_reschedules
    (f : GraphFlooder) (r : Nat) (rate : Int)
    (hr : r < f.growth_rates.length)
    (hrate : rate = 1 ∨ rate = 0 ∨ rate = -1) :
    (set_region_growth f r rate).growth_rates.getD r 0 = rate ∧
    set_region_growth f r rate =
      reschedule_events_for_region { f with growth_rates := f.growth_rates.set r rate } r ∧
    ∀ e ∈ (set_region_growth f r rate).queue, e.region = r → e.valid = false := by
  refine ⟨?_, rfl, ?_⟩
  · have hset : (f.growth_rates.set r rate)[r]? = some rate :=
      List.getElem?_set_self (by simpa using hr)
    exact getD_of_getElem? 0 hset
  · intro e he hreg
    obtain ⟨x, hx, hmap⟩ := List.mem_map.1 he
    subst hmap
    by_cases hxr : x.region = r
    · rw [if_pos hxr]
    · rw [if_neg hxr] at hreg
      exact absurd hreg hxr

/-- Fixture flooder for the `set_region_growth` witness: two regions, one
pending event on each. -/
def wFlooder8 : GraphFlooder :=
  ⟨wMatchingGraph, [⟨4, 0, true, 0⟩, ⟨6, 1, true, 1⟩], 0, [0, 1], [], []⟩

/-- Witness for `set_region_growth_assigns_and_reschedules` on `wFlooder8`:
setting region `0` to rate `1` stores the rate and invalidates region `0`'s
pending event. -/
theorem set_region_growth_assigns_and_reschedules_witness :
    (set_region_growth wFlooder8 0 1).growth_rates.getD 0 0 = 1 ∧
    set_region_growth wFlooder8 0 1 =
      reschedule_events_for_region { wFlooder8 with growth_rates := wFlooder8.growth_rates.set 0 1 } 0 ∧
    TentativeEvent.valid ⟨4, 0, false, 0⟩ = false := by
  have h := set_region_growth_assigns_and_reschedules wFlooder8 0 1 (by decide) (Or.inl rfl)
  exact ⟨h.1, h.2.1, h.2.2 ⟨4, 0, false, 0⟩ (by decide) rfl⟩

/-! ### Detector-error-model iteration: claim C10 -/

/-- One flattened error-mechanism component of a detector error model: the
instruction's probability together with the detector and observable targets of
one separator-delimited group. -/
structure DemComponent where
  p : ℝ
  dets : List Nat
  obs : List Nat

/-- From the source `detector_error_model_to_weighted_graph`: a component is
handed to `handle_dem_instruction` only when its probability is positive. -/
noncomputable def handle_component (g : IntermediateWeightedGraph) (c : DemComponent) :
    Except GraphError IntermediateWeightedGraph :=
  if 0 < c.p then handle_dem_instruction g c.p c.dets c.obs else .ok g

/-- `pm::detector_error_model_to_weighted_graph` from the source, over the
flattened list of error components: starts from a fresh graph sized by the
detector and observable counts and folds every component through
`handle_component`. -/
noncomputable def detector_error_model_to_weighted_graph (numDetectors numObservables : Nat)
    (comps : List DemComponent) : Except GraphError IntermediateWeightedGraph :=
  comps.foldlM handle_component (emptyGraph numDetectors numObservables)

/-- A component with non-positive probability, or with zero or at least three
detectors, is a no-op for `handle_component`. -/
theorem handle_component_skip {c : DemComponent}
    (hc : c.p ≤ 0 ∨ c.dets.length = 0 ∨ 3 ≤ c.dets.length) (g : IntermediateWeightedGraph) :
    handle_component g c = .ok g := by
  have hdem : c.dets.length = 0 ∨ 3 ≤ c.dets.length →
      handle_dem_instruction g c.p c.dets c.obs = .ok g := by
    intro hd
    rcases hL : c.dets with _ | ⟨d0, _ | ⟨d1, _ | ⟨d2, rest⟩⟩⟩
    · rfl
    · rw [hL] at hd
      simp at hd
    · rw [hL] at hd
      simp at hd
    · rfl
  unfold handle_component
  rcases hc with hp | hd
  · rw [if_neg (not_lt.2 hp)]
  · by_cases hp : 0 < c.p
    · rw [if_pos hp]
      exact hdem hd
    · rw [if_neg hp]

/-- Deleting a no-op component anywhere in the stream leaves the fold
unchanged. -/
theorem foldlM_handle_component_skip (c : DemComponent)
    (hc : ∀ g, handle_component g c = .ok g) :
    ∀ (pre post : List DemComponent) (g : IntermediateWeightedGraph),
      List.foldlM handle_component g (pre ++ c :: post) =
        List.foldlM handle_component g (pre ++ post) := by
  intro pre
  induction pre with
  | nil =>
    intro post g
    simp only [List.nil_append, List.foldlM_cons, hc g]
    rfl
  | cons x xs ih =>
    intro post g
    simp only [List.cons_append, List.foldlM_cons]
    cases hx : handle_component g x with
    | ok g2 => exact ih post g2
    | error err => rfl

/-- C10: `detector_error_model_to_weighted_graph` incorporates only components
with `p > 0` and exactly one or two detectors — a component with `p ≤ 0`, or
with zero or at least three detectors, returns the graph unchanged from
`handle_component`, and removing it from the instruction stream does not
change the constructed weighted graph. -/
theorem dem_component_no_op (p : ℝ) (dets obs : List Nat)
    (h : p ≤ 0 ∨ dets.length = 0 ∨ 3 ≤ dets.length) :
    (∀ g, handle_component g ⟨p, dets, obs⟩ = .ok g) ∧
    (∀ (nd no : Nat) (pre post : List DemComponent),
      detector_error_model_to_weighted_graph nd no (pre ++ ⟨p, dets, obs⟩ :: post) =
        detector_error_model_to_weighted_graph nd no (pre ++ post)) := by
  have h1 : ∀ g, handle_component g ⟨p, dets, obs⟩ = .ok g := fun g =>
    handle_component_skip h g
  refine ⟨h1, ?_⟩
  intro nd no pre post
  unfold detector_error_model_to_weighted_graph
  exact foldlM_handle_component_skip _ h1 pre post _

/-- Witness for `dem_component_no_op`: the zero-probability empty component is
dropped. -/
theorem dem_component_no_op_witness :
    ((0:ℝ) ≤ 0 ∨ ([]:List Nat).length = 0 ∨ 3 ≤ ([]:List Nat).length) ∧
    handle_component (emptyGraph 1 0) ⟨0, [], []⟩ = .ok (emptyGraph 1 0) ∧
    detector_error_model_to_weighted_graph 1 0 [⟨0, [], []⟩] =
      detector_error_model_to_weighted_graph 1 0 [] := by
  have h : (0:ℝ) ≤ 0 ∨ ([]:List Nat).length = 0 ∨ 3 ≤ ([]:List Nat).length := Or.inl le_rfl
  have hthm := dem_component_no_op 0 [] [] h
  exact ⟨h, hthm.1 (emptyGraph 1 0), hthm.2 1 0 [] []⟩

end pm
